import Mathlib

/-!
# HepCalculation.cc: the four-momentum class and the calculation built on it

A shallow embedding of `src/HepCalculation.cc`.

* Scalars (`double` in the source) are elements of a type `α` that has the
  operations the source uses (`+`, `-`, `*`, `/` and decimal literals).  Where
  a claim is about exact arithmetic, `α` is a field (`ℚ` at concrete inputs,
  `ℝ` where square roots and angles are involved); rounding is not modelled.
* Claims about NaN and the infinities are settled either for an arbitrary
  scalar type that obeys the IEEE 754 rules for the special values
  (`SpecialValueRules`), or, where the finite operations involved are exact
  in the source, with `α` the type `Double` below.
* The functions of `<math.h>` the source calls (`sqrt`, `log`, `cos`, `sin`,
  `atan2`) are not part of the repository; they are taken as a parameter
  `Libm α`.
* `std::vector<double>` is a `List α`.  An indexed read `p[j]` is bounds
  checked: it is `p[j]?`, and `none` stands for a read past the end of the
  stored sequence.  Every function that reads an index therefore returns an
  `Option`.
* The mutating operators `+=` and `-=` are state passing: they take the
  receiver and the operand and return both as they are after the call.
-/

namespace HepCalculation

/-- The functions of `<math.h>` used by the source, as a parameter. -/
structure Libm (α : Type) where
  /-- Stands for `sqrt`. -/
  sqrt : α → α
  /-- Stands for `log`. -/
  log : α → α
  /-- Stands for `cos`. -/
  cos : α → α
  /-- Stands for `sin`. -/
  sin : α → α
  /-- Stands for `atan2 (y, x)`. -/
  atan2 : α → α → α

/-- The class `FourMomentum`: its only member is `std::vector<double> p`. -/
structure FourMomentum (α : Type) where
  /-- The private member `p`. -/
  p : List α
deriving DecidableEq, Repr

set_option linter.unusedSectionVars false

open FourMomentum

section Operations

variable {α : Type} [Add α] [Sub α] [Mul α] [Div α] [OfScientific α]

namespace FourMomentum

/-- Constructor `FourMomentum(double E, double pX, double pY, double pZ)`:
`p({E, pX, pY, pZ})`. -/
def ofScalars (E pX pY pZ : α) : FourMomentum α :=
  ⟨[E, pX, pY, pZ]⟩

/-- Constructor `FourMomentum(const std::vector<double>& momentum)`:
`p(momentum)`, with no check on the length. -/
def ofVector (momentum : List α) : FourMomentum α :=
  ⟨momentum⟩

/-- Accessor `E()`: `return p[0]`. -/
def E (f : FourMomentum α) : Option α :=
  f.p[0]?

/-- Accessor `px()`: `return p[1]`. -/
def px (f : FourMomentum α) : Option α :=
  f.p[1]?

/-- Accessor `py()`: `return p[2]`. -/
def py (f : FourMomentum α) : Option α :=
  f.p[2]?

/-- Accessor `pz()`: `return p[3]`. -/
def pz (f : FourMomentum α) : Option α :=
  f.p[3]?

/-- Method `pperp2()`: `return p[1]*p[1] + p[2]*p[2]`. -/
def pperp2 (f : FourMomentum α) : Option α := do
  let p1 ← f.p[1]?
  let p2 ← f.p[2]?
  pure (p1 * p1 + p2 * p2)

/-- Method `pperp()`: `return sqrt(pperp2())`. -/
def pperp (L : Libm α) (f : FourMomentum α) : Option α := do
  let s ← f.pperp2
  pure (L.sqrt s)

/-- Method `rap()`: `return 0.5*log((p[0]+p[3])/(p[0]-p[3]))`. -/
def rap (L : Libm α) (f : FourMomentum α) : Option α := do
  let p0 ← f.p[0]?
  let p3 ← f.p[3]?
  pure (0.5 * L.log ((p0 + p3) / (p0 - p3)))

/-- Method `phi()`: `return atan2(p[2],p[1])`. -/
def phi (L : Libm α) (f : FourMomentum α) : Option α := do
  let p2 ← f.p[2]?
  let p1 ← f.p[1]?
  pure (L.atan2 p2 p1)

/-- Method `m2()`: `return p[0]*p[0] - p[1]*p[1] - p[2]*p[2] - p[3]*p[3]`. -/
def m2 (f : FourMomentum α) : Option α := do
  let p0 ← f.p[0]?
  let p1 ← f.p[1]?
  let p2 ← f.p[2]?
  let p3 ← f.p[3]?
  pure (p0 * p0 - p1 * p1 - p2 * p2 - p3 * p3)

/-- Method `m()`: `return sqrt(m2())`. -/
def m (L : Libm α) (f : FourMomentum α) : Option α := do
  let s ← f.m2
  pure (L.sqrt s)

/-- Method `P()`: `return p` (a copy of the stored sequence). -/
def P (f : FourMomentum α) : List α :=
  f.p

/-- The loop of `operator+=`, from counter `j` on:
`for (...; j<p.size(); ++j) this->p[j] += second.P()[j];`.
`p` is the receiver's storage; `second` is what `second.P()` returns. -/
def plusAssignLoop (second : List α) (j : Nat) (p : List α) : Option (List α) :=
  if h : j < p.length then
    match second[j]? with
    | some s => plusAssignLoop second (j + 1) (p.set j (p[j] + s))
    | none => none
  else
    some p
termination_by p.length - j
decreasing_by simp only [List.length_set]; omega

/-- The loop of `operator-=`, from counter `j` on:
`for (...; j<p.size(); ++j) this->p[j] -= second.P()[j];`. -/
def minusAssignLoop (second : List α) (j : Nat) (p : List α) : Option (List α) :=
  if h : j < p.length then
    match second[j]? with
    | some s => minusAssignLoop second (j + 1) (p.set j (p[j] - s))
    | none => none
  else
    some p
termination_by p.length - j
decreasing_by simp only [List.length_set]; omega

/-- Method `operator+=(const FourMomentum& second)`.  The result is the pair
(receiver after the call, operand after the call); the reference the source
returns, `*this`, is the first component.  Receiver and operand are distinct
objects, as at every call in the source. -/
def plusAssign (self second : FourMomentum α) :
    Option (FourMomentum α × FourMomentum α) := do
  let p ← plusAssignLoop second.P 0 self.p
  pure (⟨p⟩, second)

/-- Method `operator-=(const FourMomentum& second)`, as `plusAssign`. -/
def minusAssign (self second : FourMomentum α) :
    Option (FourMomentum α × FourMomentum α) := do
  let p ← minusAssignLoop second.P 0 self.p
  pure (⟨p⟩, second)

end FourMomentum

/-- Function `dot`:
`return pa.E()*pb.E() - pa.px()*pb.px()-pa.py()*pb.py()-pa.pz()*pb.pz()`. -/
def dot (pa pb : FourMomentum α) : Option α := do
  let aE ← pa.E
  let bE ← pb.E
  let ax ← pa.px
  let bx ← pb.px
  let ay ← pa.py
  let b_y ← pb.py
  let az ← pa.pz
  let bz ← pb.pz
  pure (aE * bE - ax * bx - ay * b_y - az * bz)

/-- First argument of the constructor call that `pre_calc_transform` returns:
`a.E()+x.E()`. -/
def pre_calc_transform_E (a x : FourMomentum α) : Option α := do
  let aE ← a.E
  let xE ← x.E
  pure (aE + xE)

/-- Second argument of that constructor call:
`a.px()+x.pperp()*cos(x.phi())+y.pperp()*sin(y.phi())`. -/
def pre_calc_transform_pX (L : Libm α) (a x y : FourMomentum α) : Option α := do
  let ax ← a.px
  let xperp ← x.pperp L
  let xphi ← x.phi L
  let yperp ← y.pperp L
  let yphi ← y.phi L
  pure (ax + xperp * L.cos xphi + yperp * L.sin yphi)

/-- Third argument of that constructor call:
`a.py()+x.pperp()*sin(x.phi())+y.pperp()*cos(y.phi())`. -/
def pre_calc_transform_pY (L : Libm α) (a x y : FourMomentum α) : Option α := do
  let ay ← a.py
  let xperp ← x.pperp L
  let xphi ← x.phi L
  let yperp ← y.pperp L
  let yphi ← y.phi L
  pure (ay + xperp * L.sin xphi + yperp * L.cos yphi)

/-- Fourth argument of that constructor call: `a.pz()+y.pz()`. -/
def pre_calc_transform_pZ (a y : FourMomentum α) : Option α := do
  let az ← a.pz
  let yz ← y.pz
  pure (az + yz)

/-- Function `pre_calc_transform`: `x` and `y` are copies of `b`; `x += c`,
`y -= c`; the result is built by the four-scalar constructor from the four
argument expressions above. -/
def pre_calc_transform (L : Libm α) (a b c : FourMomentum α) :
    Option (FourMomentum α) := do
  let x := b
  let y := x
  let (x, c) ← x.plusAssign c
  let (y, _) ← y.minusAssign c
  let e ← pre_calc_transform_E a x
  let pX ← pre_calc_transform_pX L a x y
  let pY ← pre_calc_transform_pY L a x y
  let pZ ← pre_calc_transform_pZ a y
  pure (FourMomentum.ofScalars e pX pY pZ)

/-- Function `do_calculation`:
`lSoft = log(transformed.pperp2()/q2)`, `lHE = log(transformed.m2()/q2)`,
`return lSoft*lHE`. -/
def do_calculation (L : Libm α) (transformed : FourMomentum α) (q2 : α) :
    Option α := do
  let s ← transformed.pperp2
  let lSoft := L.log (s / q2)
  let h ← transformed.m2
  let lHE := L.log (h / q2)
  pure (lSoft * lHE)

/-- The statements of `main` after its variables `a`, `b`, `c`, `q2` are
initialised, with the printing left out; the value is `result`, the number
`main` prints after `Answer is : `. -/
def main_sequence (L : Libm α) (a b c : FourMomentum α) (q2 : α) :
    Option α := do
  let t ← pre_calc_transform L a b c
  let log_product ← do_calculation L t q2
  let (b, _) ← b.plusAssign c
  let d ← dot a b
  let result := log_product * d
  pure result

end Operations

/-- Function `main`: `a(200.,0.,0.,200.)`, `b(90.,30.,30.,2000.)`,
`c(45.,15.,20.,1000.)`, `q2 = 100.`; the value is the `result` it prints. -/
def main {α : Type} [Field α] (L : Libm α) : Option α :=
  main_sequence L (FourMomentum.ofScalars 200 0 0 200)
    (FourMomentum.ofScalars 90 30 30 2000)
    (FourMomentum.ofScalars 45 15 20 1000) 100

/-- A concrete choice of the `<math.h>` parameter over `ℚ`, for evaluating the
functions above on concrete inputs. -/
def Libm.sample : Libm ℚ :=
  ⟨fun x => x, fun x => x, fun x => x, fun x => x, fun y _ => y⟩

/-! ## The rules for the special values, for any scalar type

A statement about the sign of a value the source computes (such as `m2()`)
has to be about the rounded value the source has, not about the exact one.
Such a statement is made for an arbitrary scalar type `α`, whose operations
round as they will, together with the rules that IEEE 754 and Annex F of the
C standard fix for `/`, `*` and `log` whatever the rounding is. -/

/-- The tests on a scalar that the statements about special values use. -/
structure FloatTests (α : Type) where
  /-- The test `isfinite(x)`. -/
  isFinite : α → Bool
  /-- The comparison `x < 0`. -/
  isNegative : α → Bool
  /-- The comparison `0 < x`. -/
  isPositive : α → Bool
  /-- The comparison `x == 0`. -/
  isZero : α → Bool

/-- What IEEE 754 fixes for `/` and `*`, and Annex F of the C standard for
`log`, in terms of the tests `T`; each rule holds of `double` under every
rounding of the finite results.

* A negative value over a positive one is negative, or a zero (an underflow,
  or a finite value over `+Infinity`), or not finite (`-Infinity`, or NaN for
  `-Infinity/+Infinity`).
* `log` of a negative value is NaN, `log` of a zero is `-Infinity`, and `log`
  of a value that is not finite is NaN or `+Infinity`.
* A product with a factor that is not finite is NaN or an infinity. -/
structure SpecialValueRules {α : Type} [Mul α] [Div α] (T : FloatTests α)
    (L : Libm α) : Prop where
  /-- A negative value over a positive one. -/
  div_neg_pos : ∀ x y : α, T.isNegative x = true → T.isPositive y = true →
    T.isNegative (x / y) = true ∨ T.isZero (x / y) = true ∨
      T.isFinite (x / y) = false
  /-- The value of `log` at a negative argument. -/
  log_neg : ∀ x : α, T.isNegative x = true → T.isFinite (L.log x) = false
  /-- The value of `log` at a zero. -/
  log_zero : ∀ x : α, T.isZero x = true → T.isFinite (L.log x) = false
  /-- The value of `log` at an argument that is not finite. -/
  log_not_finite : ∀ x : α, T.isFinite x = false →
    T.isFinite (L.log x) = false
  /-- A product whose left factor is not finite. -/
  mul_not_finite_left : ∀ x y : α, T.isFinite x = false →
    T.isFinite (x * y) = false
  /-- A product whose right factor is not finite. -/
  mul_not_finite_right : ∀ x y : α, T.isFinite y = false →
    T.isFinite (x * y) = false

/-! ## The special values of `double`, with exact finite values

`Double` has the values of an IEEE 754 `double` with the finite ones taken
exactly.  The operations follow the rules of IEEE 754 for NaN, for the
infinities and for a division by zero.  Rounding, the overflow of a finite
result and the sign of zero are not modelled; a zero is `+0`, which is what
`x - x` gives for a finite `x`.  It is used where the finite operations
involved are exact in the source too (`E - pZ` and `E + pZ` at `E = pZ`), and
as an instance of the rules above. -/

/-- The values of a `double`: a NaN, the two infinities, and the finite values
(exact rationals). -/
inductive Double where
  /-- The value NaN. -/
  | nan
  /-- The value `-Infinity`. -/
  | ninf
  /-- A finite value. -/
  | fin (q : ℚ)
  /-- The value `+Infinity`. -/
  | pinf
deriving DecidableEq

namespace Double

/-- The test `isfinite`. -/
def isFinite : Double → Bool
  | fin _ => true
  | _ => false

/-- The comparison `x < 0` (false at NaN). -/
def isNegative : Double → Bool
  | ninf => true
  | fin q => decide (q < 0)
  | _ => false

/-- The comparison `0 < x` (false at NaN). -/
def isPositive : Double → Bool
  | pinf => true
  | fin q => decide (0 < q)
  | _ => false

/-- The comparison `x == 0` (false at NaN). -/
def isZero : Double → Bool
  | fin q => decide (q = 0)
  | _ => false

/-- The four tests on `Double`. -/
def tests : FloatTests Double :=
  ⟨isFinite, isNegative, isPositive, isZero⟩

/-- Negation. -/
def neg : Double → Double
  | nan => nan
  | ninf => pinf
  | fin q => fin (-q)
  | pinf => ninf

/-- Addition: NaN propagates and `+Infinity + -Infinity` is NaN. -/
def add : Double → Double → Double
  | nan, _ => nan
  | _, nan => nan
  | pinf, ninf => nan
  | ninf, pinf => nan
  | pinf, _ => pinf
  | _, pinf => pinf
  | ninf, _ => ninf
  | _, ninf => ninf
  | fin a, fin b => fin (a + b)

/-- Subtraction: `x - y` is `x + (-y)`. -/
def sub (x y : Double) : Double :=
  add x (neg y)

/-- Multiplication: NaN propagates, zero times an infinity is NaN, and an
infinity times a nonzero value is the infinity with the product of the
signs. -/
def mul : Double → Double → Double
  | nan, _ => nan
  | _, nan => nan
  | fin a, fin b => fin (a * b)
  | fin a, pinf => if a = 0 then nan else if 0 < a then pinf else ninf
  | fin a, ninf => if a = 0 then nan else if 0 < a then ninf else pinf
  | pinf, fin b => if b = 0 then nan else if 0 < b then pinf else ninf
  | ninf, fin b => if b = 0 then nan else if 0 < b then ninf else pinf
  | pinf, pinf => pinf
  | pinf, ninf => ninf
  | ninf, pinf => ninf
  | ninf, ninf => pinf

/-- Division: NaN propagates; `0/0` and an infinity over an infinity are NaN;
a nonzero finite value over zero is the infinity with the sign of the
numerator; a finite value over an infinity is zero. -/
def div : Double → Double → Double
  | nan, _ => nan
  | _, nan => nan
  | fin a, fin b =>
    if b = 0 then (if a = 0 then nan else if 0 < a then pinf else ninf)
    else fin (a / b)
  | fin _, pinf => fin 0
  | fin _, ninf => fin 0
  | pinf, fin b => if 0 ≤ b then pinf else ninf
  | ninf, fin b => if 0 ≤ b then ninf else pinf
  | pinf, pinf => nan
  | pinf, ninf => nan
  | ninf, pinf => nan
  | ninf, ninf => nan

instance : Add Double := ⟨add⟩

instance : Sub Double := ⟨sub⟩

instance : Mul Double := ⟨mul⟩

instance : Div Double := ⟨div⟩

instance : OfScientific Double :=
  ⟨fun mantissa exponentSign decimalExponent =>
    fin (OfScientific.ofScientific mantissa exponentSign decimalExponent)⟩

end Double

/-- What C fixes for `log` at the special arguments (Annex F of the C
standard): `log(NaN)` is NaN, `log(+Infinity)` is `+Infinity`, `log(0)` is
`-Infinity`, and `log` of a negative argument, `-Infinity` included, is NaN. -/
structure Libm.LogSpecial (L : Libm Double) : Prop where
  /-- The value `log(NaN)`. -/
  log_nan : L.log Double.nan = Double.nan
  /-- The value `log(+Infinity)`. -/
  log_pinf : L.log Double.pinf = Double.pinf
  /-- The value `log(0)`. -/
  log_zero : L.log (Double.fin 0) = Double.ninf
  /-- The value `log(-Infinity)`. -/
  log_ninf : L.log Double.ninf = Double.nan
  /-- The value of `log` at a negative finite argument. -/
  log_neg : ∀ q : ℚ, q < 0 → L.log (Double.fin q) = Double.nan

/-- A concrete choice of the `<math.h>` parameter over `Double`, for evaluating
the functions above on concrete inputs.  `log` and `sqrt` are as C fixes them
at the special arguments; the finite results are placeholders. -/
def Libm.sampleDouble : Libm Double where
  sqrt := fun x =>
    match x with
    | Double.fin q => if q < 0 then Double.nan else Double.fin q
    | Double.pinf => Double.pinf
    | _ => Double.nan
  log := fun x =>
    match x with
    | Double.fin q =>
      if q < 0 then Double.nan else if q = 0 then Double.ninf else Double.fin (q - 1)
    | Double.pinf => Double.pinf
    | _ => Double.nan
  cos := fun x =>
    match x with
    | Double.fin _ => Double.fin 1
    | _ => Double.nan
  sin := fun x =>
    match x with
    | Double.fin _ => Double.fin 0
    | _ => Double.nan
  atan2 := fun y x =>
    match y, x with
    | Double.nan, _ => Double.nan
    | _, Double.nan => Double.nan
    | _, _ => Double.fin 0

/-! ## The functions of `<math.h>` over the reals -/

/-- The parameter `L` over `ℝ` is the exact mathematical functions: `sqrt` on
the non-negative reals, `log` on the positive reals, `cos`, `sin`, and
`atan2 (y, x)` the argument of the point `(x, y)`, in `(-π, π]`, with
`atan2 (0, 0) = 0`. -/
structure Libm.Exact (L : Libm ℝ) : Prop where
  /-- The function `sqrt` on its domain. -/
  sqrt_eq : ∀ x : ℝ, 0 ≤ x → L.sqrt x = Real.sqrt x
  /-- The function `log` on its domain. -/
  log_eq : ∀ x : ℝ, 0 < x → L.log x = Real.log x
  /-- The function `cos`. -/
  cos_eq : ∀ x : ℝ, L.cos x = Real.cos x
  /-- The function `sin`. -/
  sin_eq : ∀ x : ℝ, L.sin x = Real.sin x
  /-- The function `atan2`. -/
  atan2_eq : ∀ y x : ℝ, L.atan2 y x = Complex.arg ⟨x, y⟩

/-! ## Shared lemmas: the operations on four-component vectors -/

section SharedLemmas

variable {α : Type} [Add α] [Sub α] [Mul α] [Div α] [OfScientific α]

/-- A sequence of length four is its four elements. -/
theorem eq_four_of_length {l : List α} (h : l.length = 4) :
    ∃ e x y z, l = [e, x, y, z] := by
  match l, h with
  | [e, x, y, z], _ => exact ⟨e, x, y, z, rfl⟩

/-- The loop of `operator+=` on two sequences of four scalars. -/
theorem plusAssignLoop_four (v0 v1 v2 v3 w0 w1 w2 w3 : α) :
    FourMomentum.plusAssignLoop [w0, w1, w2, w3] 0 [v0, v1, v2, v3]
      = some [v0 + w0, v1 + w1, v2 + w2, v3 + w3] := by
  simp [FourMomentum.plusAssignLoop]

/-- The loop of `operator-=` on two sequences of four scalars. -/
theorem minusAssignLoop_four (v0 v1 v2 v3 w0 w1 w2 w3 : α) :
    FourMomentum.minusAssignLoop [w0, w1, w2, w3] 0 [v0, v1, v2, v3]
      = some [v0 - w0, v1 - w1, v2 - w2, v3 - w3] := by
  simp [FourMomentum.minusAssignLoop]

/-- `v += w` on four-component vectors. -/
theorem plusAssign_four {v w : FourMomentum α} {v0 v1 v2 v3 w0 w1 w2 w3 : α}
    (hv : v.p = [v0, v1, v2, v3]) (hw : w.p = [w0, w1, w2, w3]) :
    v.plusAssign w = some (⟨[v0 + w0, v1 + w1, v2 + w2, v3 + w3]⟩, w) := by
  simp [FourMomentum.plusAssign, FourMomentum.P, hv, hw, plusAssignLoop_four]

/-- `v -= w` on four-component vectors. -/
theorem minusAssign_four {v w : FourMomentum α} {v0 v1 v2 v3 w0 w1 w2 w3 : α}
    (hv : v.p = [v0, v1, v2, v3]) (hw : w.p = [w0, w1, w2, w3]) :
    v.minusAssign w = some (⟨[v0 - w0, v1 - w1, v2 - w2, v3 - w3]⟩, w) := by
  simp [FourMomentum.minusAssign, FourMomentum.P, hv, hw, minusAssignLoop_four]

/-- The four accessors on a four-component vector. -/
theorem accessors_four {f : FourMomentum α} {e x y z : α}
    (hf : f.p = [e, x, y, z]) :
    f.E = some e ∧ f.px = some x ∧ f.py = some y ∧ f.pz = some z := by
  simp [FourMomentum.E, FourMomentum.px, FourMomentum.py, FourMomentum.pz, hf]

/-- `pperp2()` on a four-component vector. -/
theorem pperp2_four {f : FourMomentum α} {e x y z : α}
    (hf : f.p = [e, x, y, z]) : f.pperp2 = some (x * x + y * y) := by
  simp [FourMomentum.pperp2, hf]

/-- `m2()` on a four-component vector. -/
theorem m2_four {f : FourMomentum α} {e x y z : α}
    (hf : f.p = [e, x, y, z]) :
    f.m2 = some (e * e - x * x - y * y - z * z) := by
  simp [FourMomentum.m2, hf]

/-- `pperp()` on a four-component vector. -/
theorem pperp_four (L : Libm α) {f : FourMomentum α} {e x y z : α}
    (hf : f.p = [e, x, y, z]) :
    f.pperp L = some (L.sqrt (x * x + y * y)) := by
  simp [FourMomentum.pperp, pperp2_four hf]

/-- `phi()` on a four-component vector. -/
theorem phi_four (L : Libm α) {f : FourMomentum α} {e x y z : α}
    (hf : f.p = [e, x, y, z]) : f.phi L = some (L.atan2 y x) := by
  simp [FourMomentum.phi, hf]

/-- `dot` on two four-component vectors. -/
theorem dot_four {a b : FourMomentum α} {aE aX aY aZ bE bX bY bZ : α}
    (ha : a.p = [aE, aX, aY, aZ]) (hb : b.p = [bE, bX, bY, bZ]) :
    dot a b = some (aE * bE - aX * bX - aY * bY - aZ * bZ) := by
  obtain ⟨h1, h2, h3, h4⟩ := accessors_four ha
  obtain ⟨k1, k2, k3, k4⟩ := accessors_four hb
  simp [dot, h1, h2, h3, h4, k1, k2, k3, k4]

/-- `pre_calc_transform` on three four-component vectors, every intermediate
value written out. -/
theorem pre_calc_transform_four (L : Libm α) {a b c : FourMomentum α}
    {aE aX aY aZ bE bX bY bZ cE cX cY cZ : α}
    (ha : a.p = [aE, aX, aY, aZ]) (hb : b.p = [bE, bX, bY, bZ])
    (hc : c.p = [cE, cX, cY, cZ]) :
    pre_calc_transform L a b c = some (FourMomentum.ofScalars
      (aE + (bE + cE))
      (aX + L.sqrt ((bX + cX) * (bX + cX) + (bY + cY) * (bY + cY))
              * L.cos (L.atan2 (bY + cY) (bX + cX))
          + L.sqrt ((bX - cX) * (bX - cX) + (bY - cY) * (bY - cY))
              * L.sin (L.atan2 (bY - cY) (bX - cX)))
      (aY + L.sqrt ((bX + cX) * (bX + cX) + (bY + cY) * (bY + cY))
              * L.sin (L.atan2 (bY + cY) (bX + cX))
          + L.sqrt ((bX - cX) * (bX - cX) + (bY - cY) * (bY - cY))
              * L.cos (L.atan2 (bY - cY) (bX - cX)))
      (aZ + (bZ - cZ))) := by
  obtain ⟨h1, h2, h3, h4⟩ := accessors_four ha
  have hx : (⟨[bE + cE, bX + cX, bY + cY, bZ + cZ]⟩ : FourMomentum α).p
      = [bE + cE, bX + cX, bY + cY, bZ + cZ] := rfl
  have hy : (⟨[bE - cE, bX - cX, bY - cY, bZ - cZ]⟩ : FourMomentum α).p
      = [bE - cE, bX - cX, bY - cY, bZ - cZ] := rfl
  obtain ⟨x1, -, -, -⟩ := accessors_four hx
  obtain ⟨-, -, -, y4⟩ := accessors_four hy
  simp [pre_calc_transform, plusAssign_four hb hc, minusAssign_four hb hc,
    pre_calc_transform_E, pre_calc_transform_pX, pre_calc_transform_pY,
    pre_calc_transform_pZ, h1, h2, h3, h4, x1, y4,
    pperp_four L hx, pperp_four L hy, phi_four L hx, phi_four L hy]

/-- `do_calculation` on a four-component vector. -/
theorem do_calculation_four (L : Libm α) {t : FourMomentum α} {e x y z : α}
    (ht : t.p = [e, x, y, z]) (q2 : α) :
    do_calculation L t q2
      = some (L.log ((x * x + y * y) / q2)
          * L.log ((e * e - x * x - y * y - z * z) / q2)) := by
  simp [do_calculation, pperp2_four ht, m2_four ht]

/-- `rap()` on a four-component vector. -/
theorem rap_four (L : Libm α) {f : FourMomentum α} {e x y z : α}
    (hf : f.p = [e, x, y, z]) :
    f.rap L = some (0.5 * L.log ((e + z) / (e - z))) := by
  simp [FourMomentum.rap, hf]

/-- `m()` on a four-component vector. -/
theorem m_four (L : Libm α) {f : FourMomentum α} {e x y z : α}
    (hf : f.p = [e, x, y, z]) :
    f.m L = some (L.sqrt (e * e - x * x - y * y - z * z)) := by
  simp [FourMomentum.m, m2_four hf]

/-- The sequence of `main` on three four-component vectors whose transform is
`t` and whose `do_calculation` value is `lp`. -/
theorem main_sequence_four (L : Libm α) {a b c t : FourMomentum α} {q2 lp : α}
    {aE aX aY aZ bE bX bY bZ cE cX cY cZ : α}
    (ha : a.p = [aE, aX, aY, aZ]) (hb : b.p = [bE, bX, bY, bZ])
    (hc : c.p = [cE, cX, cY, cZ]) (ht : pre_calc_transform L a b c = some t)
    (hlp : do_calculation L t q2 = some lp) :
    main_sequence L a b c q2
      = some (lp * (aE * (bE + cE) - aX * (bX + cX) - aY * (bY + cY)
          - aZ * (bZ + cZ))) := by
  have hs : (⟨[bE + cE, bX + cX, bY + cY, bZ + cZ]⟩ : FourMomentum α).p
      = [bE + cE, bX + cX, bY + cY, bZ + cZ] := rfl
  simp [main_sequence, ht, hlp, plusAssign_four hb hc, dot_four ha hs]

end SharedLemmas

/-! ## The claims -/

variable {α : Type} [Field α]

/-- C1: for four-component `a`, `b`, `c`, `pre_calc_transform(a, b, c)` returns
a new vector with `E = a.E + sum.E`,
`pX = a.pX + sum.pperp*cos(sum.phi) + diff.pperp*sin(diff.phi)`,
`pY = a.pY + sum.pperp*sin(sum.phi) + diff.pperp*cos(diff.phi)`,
`pZ = a.pZ + diff.pZ`, where `sum` is the componentwise `b + c` and `diff` the
componentwise `b - c`, both computed from the unmodified `b` and `c`; so
`E = a.E + b.E + c.E` and `pZ = a.pZ + b.pZ - c.pZ`. -/
theorem pre_calc_transform_components (L : Libm α) (a b c : FourMomentum α)
    (aE aX aY aZ bE bX bY bZ cE cX cY cZ : α)
    (ha : a.p = [aE, aX, aY, aZ]) (hb : b.p = [bE, bX, bY, bZ])
    (hc : c.p = [cE, cX, cY, cZ]) :
    ∃ (sum diff t : FourMomentum α) (sperp sphi dperp dphi : α),
      b.plusAssign c = some (sum, c) ∧ b.minusAssign c = some (diff, c) ∧
      sum.p = [bE + cE, bX + cX, bY + cY, bZ + cZ] ∧
      diff.p = [bE - cE, bX - cX, bY - cY, bZ - cZ] ∧
      sum.pperp L = some sperp ∧ sum.phi L = some sphi ∧
      diff.pperp L = some dperp ∧ diff.phi L = some dphi ∧
      pre_calc_transform L a b c = some t ∧
      t.p = [aE + (bE + cE),
             aX + sperp * L.cos sphi + dperp * L.sin dphi,
             aY + sperp * L.sin sphi + dperp * L.cos dphi,
             aZ + (bZ - cZ)] ∧
      t.E = some (aE + bE + cE) ∧ t.pz = some (aZ + bZ - cZ) := by
  have hx : (⟨[bE + cE, bX + cX, bY + cY, bZ + cZ]⟩ : FourMomentum α).p
      = [bE + cE, bX + cX, bY + cY, bZ + cZ] := rfl
  have hy : (⟨[bE - cE, bX - cX, bY - cY, bZ - cZ]⟩ : FourMomentum α).p
      = [bE - cE, bX - cX, bY - cY, bZ - cZ] := rfl
  refine ⟨_, _, _, _, _, _, _, plusAssign_four hb hc, minusAssign_four hb hc,
    hx, hy, pperp_four L hx, phi_four L hx, pperp_four L hy, phi_four L hy,
    pre_calc_transform_four L ha hb hc, rfl, ?_, ?_⟩
  · simp [FourMomentum.E, FourMomentum.ofScalars, add_assoc]
  · simp [FourMomentum.pz, FourMomentum.ofScalars, add_sub_assoc]

/-- C1, at the reference vectors `a = (200,0,0,200)`, `b = (90,30,30,2000)`,
`c = (45,15,20,1000)`: the hypotheses hold and the theorem applies; there
`sum = (135,45,50,3000)`, `diff = (45,15,10,1000)`, `E = 335`, `pZ = 1200`. -/
theorem pre_calc_transform_components_witness :
    ∃ (sum diff t : FourMomentum ℚ),
      (FourMomentum.ofScalars (90 : ℚ) 30 30 2000).plusAssign
          (FourMomentum.ofScalars 45 15 20 1000)
        = some (sum, FourMomentum.ofScalars 45 15 20 1000) ∧
      (FourMomentum.ofScalars (90 : ℚ) 30 30 2000).minusAssign
          (FourMomentum.ofScalars 45 15 20 1000)
        = some (diff, FourMomentum.ofScalars 45 15 20 1000) ∧
      sum.p = [135, 45, 50, 3000] ∧ diff.p = [45, 15, 10, 1000] ∧
      pre_calc_transform Libm.sample (FourMomentum.ofScalars 200 0 0 200)
          (FourMomentum.ofScalars 90 30 30 2000)
          (FourMomentum.ofScalars 45 15 20 1000) = some t ∧
      t.E = some 335 ∧ t.pz = some 1200 := by
  obtain ⟨sum, diff, t, _, _, _, _, h1, h2, h3, h4, _, _, _, _, h5, _, h6, h7⟩ :=
    pre_calc_transform_components Libm.sample
      (FourMomentum.ofScalars 200 0 0 200) (FourMomentum.ofScalars 90 30 30 2000)
      (FourMomentum.ofScalars 45 15 20 1000)
      200 0 0 200 90 30 30 2000 45 15 20 1000 rfl rfl rfl
  refine ⟨sum, diff, t, h1, h2, ?_, ?_, h5, ?_, ?_⟩
  · rw [h3]; norm_num
  · rw [h4]; norm_num
  · rw [h6]; norm_num
  · rw [h7]; norm_num

/-- C2: for four-component `a`, `b`, `c` and every scale `q2`, the scalar that
the sequence of `main` reports (`t = pre_calc_transform(a,b,c)`;
`log_product = do_calculation(t,q2)`; `b += c`;
`result = log_product*dot(a,b)`) equals
`do_calculation(pre_calc_transform(a, b, c), q2) * dot(a, b + c)`: the
transform sees the original `b` and `c`, the Minkowski product sees the
original `b` plus `c`. -/
theorem main_sequence_eq (L : Libm α) (a b c : FourMomentum α) (q2 : α)
    (aE aX aY aZ bE bX bY bZ cE cX cY cZ : α)
    (ha : a.p = [aE, aX, aY, aZ]) (hb : b.p = [bE, bX, bY, bZ])
    (hc : c.p = [cE, cX, cY, cZ]) :
    ∃ (t : FourMomentum α) (log_product d : α),
      pre_calc_transform L a b c = some t ∧
      do_calculation L t q2 = some log_product ∧
      dot a ⟨[bE + cE, bX + cX, bY + cY, bZ + cZ]⟩ = some d ∧
      d = aE * (bE + cE) - aX * (bX + cX) - aY * (bY + cY) - aZ * (bZ + cZ) ∧
      main_sequence L a b c q2 = some (log_product * d) := by
  have hs : (⟨[bE + cE, bX + cX, bY + cY, bZ + cZ]⟩ : FourMomentum α).p
      = [bE + cE, bX + cX, bY + cY, bZ + cZ] := rfl
  have ht := pre_calc_transform_four L ha hb hc
  refine ⟨_, _, _, ht, do_calculation_four L rfl q2, dot_four ha hs, rfl, ?_⟩
  have hd : ∀ e x y z : α, do_calculation L (FourMomentum.ofScalars e x y z) q2
      = some (L.log ((x * x + y * y) / q2)
          * L.log ((e * e - x * x - y * y - z * z) / q2)) :=
    fun e x y z => do_calculation_four L rfl q2
  simp [main_sequence, ht, plusAssign_four hb hc, dot_four ha hs, hd]

/-- C2, at the reference vectors of `main` and `q2 = 100`. -/
theorem main_sequence_eq_witness :
    ∃ (t : FourMomentum ℚ) (log_product d : ℚ),
      pre_calc_transform Libm.sample (FourMomentum.ofScalars 200 0 0 200)
          (FourMomentum.ofScalars 90 30 30 2000)
          (FourMomentum.ofScalars 45 15 20 1000) = some t ∧
      do_calculation Libm.sample t 100 = some log_product ∧
      dot (FourMomentum.ofScalars 200 0 0 200)
          ⟨[90 + 45, 30 + 15, 30 + 20, 2000 + 1000]⟩ = some d ∧
      d = 200 * (90 + 45) - 0 * (30 + 15) - 0 * (30 + 20) - 200 * (2000 + 1000) ∧
      main_sequence Libm.sample (FourMomentum.ofScalars 200 0 0 200)
          (FourMomentum.ofScalars 90 30 30 2000)
          (FourMomentum.ofScalars 45 15 20 1000) 100 = some (log_product * d) :=
  main_sequence_eq Libm.sample (FourMomentum.ofScalars 200 0 0 200)
    (FourMomentum.ofScalars 90 30 30 2000) (FourMomentum.ofScalars 45 15 20 1000)
    100 200 0 0 200 90 30 30 2000 45 15 20 1000 rfl rfl rfl

/-- C3: for four-component `v` and `w`, `v += w` followed by `-= w` on the
result returns the receiver to its original component values (exact
arithmetic); the operand is `w` throughout. -/
theorem plusAssign_minusAssign_cancel (v w : FourMomentum α)
    (hv : v.p.length = 4) (hw : w.p.length = 4) :
    (v.plusAssign w).bind (fun r => r.1.minusAssign r.2) = some (v, w) := by
  obtain ⟨v0, v1, v2, v3, hv⟩ := eq_four_of_length hv
  obtain ⟨w0, w1, w2, w3, hw⟩ := eq_four_of_length hw
  have hs : (⟨[v0 + w0, v1 + w1, v2 + w2, v3 + w3]⟩ : FourMomentum α).p
      = [v0 + w0, v1 + w1, v2 + w2, v3 + w3] := rfl
  rw [plusAssign_four hv hw, Option.some_bind, minusAssign_four hs hw]
  cases v
  simp only [add_sub_cancel_right] at hv ⊢
  rw [hv]

/-- C3, at `v = (90,30,30,2000)`, `w = (45,15,20,1000)`. -/
theorem plusAssign_minusAssign_cancel_witness :
    (FourMomentum.ofScalars (90 : ℚ) 30 30 2000).p.length = 4 ∧
    (FourMomentum.ofScalars (45 : ℚ) 15 20 1000).p.length = 4 ∧
    ((FourMomentum.ofScalars (90 : ℚ) 30 30 2000).plusAssign
        (FourMomentum.ofScalars 45 15 20 1000)).bind
        (fun r => r.1.minusAssign r.2)
      = some (FourMomentum.ofScalars 90 30 30 2000,
          FourMomentum.ofScalars 45 15 20 1000) :=
  ⟨rfl, rfl, plusAssign_minusAssign_cancel _ _ rfl rfl⟩

/-- C4: for every four-component `a`, the Minkowski product of `a` with itself
is defined and equals its invariant-mass-squared: `dot(a, a) == a.m2()`. -/
theorem dot_self_eq_m2 (a : FourMomentum α) (ha : a.p.length = 4) :
    ∃ r, dot a a = some r ∧ a.m2 = some r := by
  obtain ⟨e, x, y, z, ha⟩ := eq_four_of_length ha
  exact ⟨_, dot_four ha ha, m2_four ha⟩

/-- C4, at `a = (200,0,0,200)`. -/
theorem dot_self_eq_m2_witness :
    (FourMomentum.ofScalars (200 : ℚ) 0 0 200).p.length = 4 ∧
    ∃ r, dot (FourMomentum.ofScalars (200 : ℚ) 0 0 200)
          (FourMomentum.ofScalars 200 0 0 200) = some r ∧
      (FourMomentum.ofScalars (200 : ℚ) 0 0 200).m2 = some r :=
  ⟨rfl, dot_self_eq_m2 _ rfl⟩

/-- C5: for four-component `a` and `b`, `dot(a, b)` equals
`a.E*b.E - a.pX*b.pX - a.pY*b.pY - a.pZ*b.pZ`, and the product is commutative:
`dot(a, b) == dot(b, a)`. -/
theorem dot_formula_comm (a b : FourMomentum α) (aE aX aY aZ bE bX bY bZ : α)
    (ha : a.p = [aE, aX, aY, aZ]) (hb : b.p = [bE, bX, bY, bZ]) :
    dot a b = some (aE * bE - aX * bX - aY * bY - aZ * bZ) ∧
    dot a b = dot b a := by
  refine ⟨dot_four ha hb, ?_⟩
  rw [dot_four ha hb, dot_four hb ha]
  congr 1
  ring

/-- C5, at `a = (200,0,0,200)`, `b = (90,30,30,2000)`. -/
theorem dot_formula_comm_witness :
    (FourMomentum.ofScalars (200 : ℚ) 0 0 200).p = [200, 0, 0, 200] ∧
    (FourMomentum.ofScalars (90 : ℚ) 30 30 2000).p = [90, 30, 30, 2000] ∧
    dot (FourMomentum.ofScalars (200 : ℚ) 0 0 200)
        (FourMomentum.ofScalars 90 30 30 2000)
      = some (200 * 90 - 0 * 30 - 0 * 30 - 200 * 2000) ∧
    dot (FourMomentum.ofScalars (200 : ℚ) 0 0 200)
        (FourMomentum.ofScalars 90 30 30 2000)
      = dot (FourMomentum.ofScalars 90 30 30 2000)
          (FourMomentum.ofScalars 200 0 0 200) :=
  ⟨rfl, rfl, dot_formula_comm _ _ 200 0 0 200 90 30 30 2000 rfl rfl⟩

/-- C6: for four-component `v`, `w` (and `u`), `v += w` sets each component
`j` of the receiver to `v[j] + w[j]` and `v -= w` sets it to `v[j] - w[j]`;
in both the operand `w` is left unchanged and what is returned is the mutated
receiver, so the chained `(v += w) += u` has components
`v[j] + w[j] + u[j]`. -/
theorem plusAssign_minusAssign_components (v w u : FourMomentum α)
    (v0 v1 v2 v3 w0 w1 w2 w3 u0 u1 u2 u3 : α)
    (hv : v.p = [v0, v1, v2, v3]) (hw : w.p = [w0, w1, w2, w3])
    (hu : u.p = [u0, u1, u2, u3]) :
    v.plusAssign w = some (⟨[v0 + w0, v1 + w1, v2 + w2, v3 + w3]⟩, w) ∧
    v.minusAssign w = some (⟨[v0 - w0, v1 - w1, v2 - w2, v3 - w3]⟩, w) ∧
    (v.plusAssign w).bind (fun r => r.1.plusAssign u)
      = some (⟨[v0 + w0 + u0, v1 + w1 + u1, v2 + w2 + u2, v3 + w3 + u3]⟩, u) := by
  have hs : (⟨[v0 + w0, v1 + w1, v2 + w2, v3 + w3]⟩ : FourMomentum α).p
      = [v0 + w0, v1 + w1, v2 + w2, v3 + w3] := rfl
  refine ⟨plusAssign_four hv hw, minusAssign_four hv hw, ?_⟩
  rw [plusAssign_four hv hw, Option.some_bind, plusAssign_four hs hu]

/-- C6, at `v = (90,30,30,2000)`, `w = (45,15,20,1000)`, `u = (200,0,0,200)`. -/
theorem plusAssign_minusAssign_components_witness :
    (FourMomentum.ofScalars (90 : ℚ) 30 30 2000).p = [90, 30, 30, 2000] ∧
    (FourMomentum.ofScalars (45 : ℚ) 15 20 1000).p = [45, 15, 20, 1000] ∧
    (FourMomentum.ofScalars (200 : ℚ) 0 0 200).p = [200, 0, 0, 200] ∧
    (FourMomentum.ofScalars (90 : ℚ) 30 30 2000).plusAssign
        (FourMomentum.ofScalars 45 15 20 1000)
      = some (⟨[90 + 45, 30 + 15, 30 + 20, 2000 + 1000]⟩,
          FourMomentum.ofScalars 45 15 20 1000) ∧
    (FourMomentum.ofScalars (90 : ℚ) 30 30 2000).minusAssign
        (FourMomentum.ofScalars 45 15 20 1000)
      = some (⟨[90 - 45, 30 - 15, 30 - 20, 2000 - 1000]⟩,
          FourMomentum.ofScalars 45 15 20 1000) ∧
    ((FourMomentum.ofScalars (90 : ℚ) 30 30 2000).plusAssign
        (FourMomentum.ofScalars 45 15 20 1000)).bind
        (fun r => r.1.plusAssign (FourMomentum.ofScalars 200 0 0 200))
      = some (⟨[90 + 45 + 200, 30 + 15 + 0, 30 + 20 + 0, 2000 + 1000 + 200]⟩,
          FourMomentum.ofScalars 200 0 0 200) :=
  ⟨rfl, rfl, rfl,
    plusAssign_minusAssign_components _ _ _ 90 30 30 2000 45 15 20 1000
      200 0 0 200 rfl rfl rfl⟩

/-- C7: for every four-component `t` and every scale `q2`,
`do_calculation(t, q2)` returns `ln(t.pperp2()/q2) * ln(t.m2()/q2)`, whatever
the values of `t` and `q2` are (there is no validation or adjustment of
either). -/
theorem do_calculation_formula (L : Libm α) (t : FourMomentum α) (q2 : α)
    (ht : t.p.length = 4) :
    ∃ s h, t.pperp2 = some s ∧ t.m2 = some h ∧
      do_calculation L t q2 = some (L.log (s / q2) * L.log (h / q2)) := by
  obtain ⟨e, x, y, z, ht⟩ := eq_four_of_length ht
  exact ⟨_, _, pperp2_four ht, m2_four ht, do_calculation_four L ht q2⟩

/-- C7, at `t = (335,55,65,1200)`, `q2 = 100`. -/
theorem do_calculation_formula_witness :
    (FourMomentum.ofScalars (335 : ℚ) 55 65 1200).p.length = 4 ∧
    ∃ s h, (FourMomentum.ofScalars (335 : ℚ) 55 65 1200).pperp2 = some s ∧
      (FourMomentum.ofScalars (335 : ℚ) 55 65 1200).m2 = some h ∧
      do_calculation Libm.sample (FourMomentum.ofScalars 335 55 65 1200) 100
        = some (Libm.sample.log (s / 100) * Libm.sample.log (h / 100)) :=
  ⟨rfl, do_calculation_formula Libm.sample _ 100 rfl⟩

/-- C8: in the reference scenario `a = (200,0,0,200)`, `b = (90,30,30,2000)`,
`c = (45,15,20,1000)`, after `b += c` the vector `b` has components
`(135,45,50,3000)` and `dot(a, b)` equals `-573000`. -/
theorem reference_dot_after_plusAssign :
    ∃ b' : FourMomentum ℚ,
      (FourMomentum.ofScalars (90 : ℚ) 30 30 2000).plusAssign
          (FourMomentum.ofScalars 45 15 20 1000)
        = some (b', FourMomentum.ofScalars 45 15 20 1000) ∧
      b'.p = [135, 45, 50, 3000] ∧
      dot (FourMomentum.ofScalars 200 0 0 200) b' = some (-573000) := by
  have hb : (FourMomentum.ofScalars (90 : ℚ) 30 30 2000).p = [90, 30, 30, 2000] := rfl
  have hc : (FourMomentum.ofScalars (45 : ℚ) 15 20 1000).p = [45, 15, 20, 1000] := rfl
  have ha : (FourMomentum.ofScalars (200 : ℚ) 0 0 200).p = [200, 0, 0, 200] := rfl
  have hs : (⟨[90 + 45, 30 + 15, 30 + 20, 2000 + 1000]⟩ : FourMomentum ℚ).p
      = [90 + 45, 30 + 15, 30 + 20, 2000 + 1000] := rfl
  refine ⟨_, plusAssign_four hb hc, ?_, ?_⟩
  · norm_num
  · rw [dot_four ha hs]
    norm_num

/-- C9: the vector constructed from four scalars `E`, `pX`, `pY`, `pZ` in that
order returns `E` from `E()`, `pX` from `px()`, `pY` from `py()`, `pZ` from
`pz()` and the sequence `[E, pX, pY, pZ]` from `P()`; and the vector
constructed from a sequence `s` of exactly four scalars returns `s` from `P()`
and `s[0]`, `s[1]`, `s[2]`, `s[3]` from the four named accessors. -/
theorem constructors_accessors (E pX pY pZ : α) (s : List α)
    (hs : s.length = 4) :
    ((FourMomentum.ofScalars E pX pY pZ).E = some E ∧
      (FourMomentum.ofScalars E pX pY pZ).px = some pX ∧
      (FourMomentum.ofScalars E pX pY pZ).py = some pY ∧
      (FourMomentum.ofScalars E pX pY pZ).pz = some pZ ∧
      (FourMomentum.ofScalars E pX pY pZ).P = [E, pX, pY, pZ]) ∧
    ((FourMomentum.ofVector s).P = s ∧
      (FourMomentum.ofVector s).E = some (s.get ⟨0, by omega⟩) ∧
      (FourMomentum.ofVector s).px = some (s.get ⟨1, by omega⟩) ∧
      (FourMomentum.ofVector s).py = some (s.get ⟨2, by omega⟩) ∧
      (FourMomentum.ofVector s).pz = some (s.get ⟨3, by omega⟩)) := by
  obtain ⟨e, x, y, z, rfl⟩ := eq_four_of_length hs
  simp [FourMomentum.ofScalars, FourMomentum.ofVector, FourMomentum.E,
    FourMomentum.px, FourMomentum.py, FourMomentum.pz, FourMomentum.P]
  rfl

/-- C9, at the scalars `200, 0, 0, 200` and the sequence
`[90, 30, 30, 2000]`. -/
theorem constructors_accessors_witness :
    ([(90 : ℚ), 30, 30, 2000]).length = 4 ∧
    (FourMomentum.ofScalars (200 : ℚ) 0 0 200).P = [200, 0, 0, 200] ∧
    (FourMomentum.ofVector [(90 : ℚ), 30, 30, 2000]).P = [90, 30, 30, 2000] ∧
    (FourMomentum.ofVector [(90 : ℚ), 30, 30, 2000]).pz = some 2000 :=
  have h := constructors_accessors (200 : ℚ) 0 0 200 [90, 30, 30, 2000] rfl
  ⟨rfl, h.1.2.2.2.2, h.2.1, h.2.2.2.2.2⟩

/-- C10: the sequence constructor performs no length check: for every sequence
of length other than four, construction succeeds and stores the sequence as
given; and for a sequence of length less than four the accessor `pz()`, and
hence `m2()` and `dot` (in either argument position), read an index past the
end of the stored sequence. -/
theorem ofVector_no_length_check (s : List α) (_hs : s.length ≠ 4) :
    (FourMomentum.ofVector s).P = s ∧ (FourMomentum.ofVector s).p = s ∧
    (s.length < 4 →
      (FourMomentum.ofVector s).pz = none ∧
      (FourMomentum.ofVector s).m2 = none ∧
      ∀ o : FourMomentum α,
        dot (FourMomentum.ofVector s) o = none ∧
        dot o (FourMomentum.ofVector s) = none) := by
  refine ⟨rfl, rfl, fun hlt => ?_⟩
  have h3 : s[3]? = none := List.getElem?_eq_none (by omega)
  have hz : (FourMomentum.ofVector s).pz = none := h3
  refine ⟨hz, ?_, fun o => ⟨?_, ?_⟩⟩
  · simp only [FourMomentum.m2, FourMomentum.ofVector, h3]
    cases s[0]? <;> cases s[1]? <;> cases s[2]? <;> rfl
  · simp only [dot, hz]
    cases (FourMomentum.ofVector s).E <;> cases o.E <;>
      cases (FourMomentum.ofVector s).px <;> cases o.px <;>
      cases (FourMomentum.ofVector s).py <;> cases o.py <;> rfl
  · simp only [dot, hz]
    cases (FourMomentum.ofVector s).E <;> cases o.E <;>
      cases (FourMomentum.ofVector s).px <;> cases o.px <;>
      cases (FourMomentum.ofVector s).py <;> cases o.py <;>
      cases o.pz <;> rfl

/-- C10, at the three-element sequence `[1, 2, 3]`. -/
theorem ofVector_no_length_check_witness :
    ([(1 : ℚ), 2, 3]).length ≠ 4 ∧ ([(1 : ℚ), 2, 3]).length < 4 ∧
    (FourMomentum.ofVector [(1 : ℚ), 2, 3]).P = [1, 2, 3] ∧
    (FourMomentum.ofVector [(1 : ℚ), 2, 3]).pz = none ∧
    (FourMomentum.ofVector [(1 : ℚ), 2, 3]).m2 = none ∧
    dot (FourMomentum.ofVector [(1 : ℚ), 2, 3])
      (FourMomentum.ofScalars 200 0 0 200) = none :=
  have h := ofVector_no_length_check [(1 : ℚ), 2, 3] (by decide)
  have k := h.2.2 (by decide)
  ⟨by decide, by decide, h.1, k.1, k.2.1, (k.2.2 _).1⟩

/-- C11: four-component arity is an invariant.  The four-scalar constructor
builds a vector of exactly four components; `+=` and `-=` on a four-component
receiver and operand leave the receiver with exactly four components;
`pre_calc_transform` returns a four-component vector; and on four-component
vectors every indexed read of the accessors, the derived quantities, `+=`,
`-=`, `dot` and `pre_calc_transform` is within bounds (each returns a value,
never the out-of-bounds result). -/
theorem four_components_invariant (L : Libm α) (a b c : FourMomentum α)
    (e x y z : α) (ha : a.p.length = 4) (hb : b.p.length = 4)
    (hc : c.p.length = 4) :
    (FourMomentum.ofScalars e x y z).p.length = 4 ∧
    (∃ r, a.plusAssign b = some r ∧ r.1.p.length = 4) ∧
    (∃ r, a.minusAssign b = some r ∧ r.1.p.length = 4) ∧
    (∃ t, pre_calc_transform L a b c = some t ∧ t.p.length = 4) ∧
    (a.E.isSome ∧ a.px.isSome ∧ a.py.isSome ∧ a.pz.isSome) ∧
    (a.pperp2.isSome ∧ (a.pperp L).isSome ∧ (a.rap L).isSome ∧
      (a.phi L).isSome ∧ a.m2.isSome ∧ (a.m L).isSome) ∧
    (dot a b).isSome := by
  obtain ⟨aE, aX, aY, aZ, ha⟩ := eq_four_of_length ha
  obtain ⟨bE, bX, bY, bZ, hb⟩ := eq_four_of_length hb
  obtain ⟨cE, cX, cY, cZ, hc⟩ := eq_four_of_length hc
  obtain ⟨h1, h2, h3, h4⟩ := accessors_four ha
  refine ⟨rfl, ⟨_, plusAssign_four ha hb, rfl⟩, ⟨_, minusAssign_four ha hb, rfl⟩,
    ⟨_, pre_calc_transform_four L ha hb hc, rfl⟩, ?_, ?_, ?_⟩
  · simp [h1, h2, h3, h4]
  · simp [pperp2_four ha, pperp_four L ha, rap_four L ha, phi_four L ha,
      m2_four ha, m_four L ha]
  · simp [dot_four ha hb]

/-- C11, at `a = (200,0,0,200)`, `b = (90,30,30,2000)`,
`c = (45,15,20,1000)`. -/
theorem four_components_invariant_witness :
    (FourMomentum.ofScalars (200 : ℚ) 0 0 200).p.length = 4 ∧
    (FourMomentum.ofScalars (90 : ℚ) 30 30 2000).p.length = 4 ∧
    (FourMomentum.ofScalars (45 : ℚ) 15 20 1000).p.length = 4 ∧
    (∃ t, pre_calc_transform Libm.sample (FourMomentum.ofScalars 200 0 0 200)
        (FourMomentum.ofScalars 90 30 30 2000)
        (FourMomentum.ofScalars 45 15 20 1000) = some t ∧ t.p.length = 4) ∧
    (dot (FourMomentum.ofScalars (200 : ℚ) 0 0 200)
      (FourMomentum.ofScalars 90 30 30 2000)).isSome :=
  have h := four_components_invariant Libm.sample
    (FourMomentum.ofScalars (200 : ℚ) 0 0 200)
    (FourMomentum.ofScalars 90 30 30 2000)
    (FourMomentum.ofScalars 45 15 20 1000) 0 0 0 0 rfl rfl rfl
  ⟨rfl, rfl, rfl, h.2.2.2.1, h.2.2.2.2.2.2⟩

/-- C16: for four-component `a`, `b`, `c`, with `b'` the value of `b` after
`b += c`, `dot(a, b') == dot(a, b) + dot(a, c)` and, symmetrically,
`dot(b', a) == dot(b, a) + dot(c, a)` (exact arithmetic). -/
theorem dot_plusAssign_distrib (a b c : FourMomentum α)
    (ha : a.p.length = 4) (hb : b.p.length = 4) (hc : c.p.length = 4) :
    ∃ (b' : FourMomentum α) (dab dac dba dca : α),
      b.plusAssign c = some (b', c) ∧
      dot a b = some dab ∧ dot a c = some dac ∧
      dot a b' = some (dab + dac) ∧
      dot b a = some dba ∧ dot c a = some dca ∧
      dot b' a = some (dba + dca) := by
  obtain ⟨aE, aX, aY, aZ, ha⟩ := eq_four_of_length ha
  obtain ⟨bE, bX, bY, bZ, hb⟩ := eq_four_of_length hb
  obtain ⟨cE, cX, cY, cZ, hc⟩ := eq_four_of_length hc
  have hs : (⟨[bE + cE, bX + cX, bY + cY, bZ + cZ]⟩ : FourMomentum α).p
      = [bE + cE, bX + cX, bY + cY, bZ + cZ] := rfl
  refine ⟨_, _, _, _, _, plusAssign_four hb hc, dot_four ha hb, dot_four ha hc,
    ?_, dot_four hb ha, dot_four hc ha, ?_⟩
  · rw [dot_four ha hs]
    congr 1
    ring
  · rw [dot_four hs ha]
    congr 1
    ring

/-- C16, at `a = (200,0,0,200)`, `b = (90,30,30,2000)`,
`c = (45,15,20,1000)`. -/
theorem dot_plusAssign_distrib_witness :
    (FourMomentum.ofScalars (200 : ℚ) 0 0 200).p.length = 4 ∧
    (FourMomentum.ofScalars (90 : ℚ) 30 30 2000).p.length = 4 ∧
    (FourMomentum.ofScalars (45 : ℚ) 15 20 1000).p.length = 4 ∧
    ∃ (b' : FourMomentum ℚ) (dab dac dba dca : ℚ),
      (FourMomentum.ofScalars (90 : ℚ) 30 30 2000).plusAssign
          (FourMomentum.ofScalars 45 15 20 1000)
        = some (b', FourMomentum.ofScalars 45 15 20 1000) ∧
      dot (FourMomentum.ofScalars 200 0 0 200)
          (FourMomentum.ofScalars 90 30 30 2000) = some dab ∧
      dot (FourMomentum.ofScalars 200 0 0 200)
          (FourMomentum.ofScalars 45 15 20 1000) = some dac ∧
      dot (FourMomentum.ofScalars 200 0 0 200) b' = some (dab + dac) ∧
      dot (FourMomentum.ofScalars 90 30 30 2000)
          (FourMomentum.ofScalars 200 0 0 200) = some dba ∧
      dot (FourMomentum.ofScalars 45 15 20 1000)
          (FourMomentum.ofScalars 200 0 0 200) = some dca ∧
      dot b' (FourMomentum.ofScalars 200 0 0 200) = some (dba + dca) :=
  ⟨rfl, rfl, rfl, dot_plusAssign_distrib _ _ _ rfl rfl rfl⟩

/-! ## Exact real arithmetic -/

/-- The mathematical functions themselves are an exact choice of the
`<math.h>` parameter. -/
theorem exact_real_functions :
    (⟨Real.sqrt, Real.log, Real.cos, Real.sin,
      fun y x => Complex.arg ⟨x, y⟩⟩ : Libm ℝ).Exact :=
  ⟨fun _ _ => rfl, fun _ _ => rfl, fun _ => rfl, fun _ => rfl, fun _ _ => rfl⟩

/-- Over the reals the square root in `pperp()` is the modulus of the point
`(x, y)`. -/
theorem exact_sqrt_eq_abs (L : Libm ℝ) (hL : L.Exact) (x y : ℝ) :
    L.sqrt (x * x + y * y) = Complex.abs ⟨x, y⟩ := by
  rw [hL.sqrt_eq _ (add_nonneg (mul_self_nonneg x) (mul_self_nonneg y)),
    Complex.abs_apply, Complex.normSq_mk]

/-- Over the reals `pperp()*cos(phi())` is `px()`, also at `px = py = 0`. -/
theorem exact_pperp_mul_cos (L : Libm ℝ) (hL : L.Exact) (x y : ℝ) :
    L.sqrt (x * x + y * y) * L.cos (L.atan2 y x) = x := by
  rw [exact_sqrt_eq_abs L hL, hL.cos_eq, hL.atan2_eq]
  exact Complex.abs_mul_cos_arg ⟨x, y⟩

/-- Over the reals `pperp()*sin(phi())` is `py()`, also at `px = py = 0`. -/
theorem exact_pperp_mul_sin (L : Libm ℝ) (hL : L.Exact) (x y : ℝ) :
    L.sqrt (x * x + y * y) * L.sin (L.atan2 y x) = y := by
  rw [exact_sqrt_eq_abs L hL, hL.sin_eq, hL.atan2_eq]
  exact Complex.abs_mul_sin_arg ⟨x, y⟩

/-- Over the reals `pre_calc_transform` on four-component vectors has plain
components. -/
theorem pre_calc_transform_exact_four (L : Libm ℝ) (hL : L.Exact)
    {a b c : FourMomentum ℝ} {aE aX aY aZ bE bX bY bZ cE cX cY cZ : ℝ}
    (ha : a.p = [aE, aX, aY, aZ]) (hb : b.p = [bE, bX, bY, bZ])
    (hc : c.p = [cE, cX, cY, cZ]) :
    pre_calc_transform L a b c = some (FourMomentum.ofScalars
      (aE + (bE + cE)) (aX + (bX + cX) + (bY - cY))
      (aY + (bY + cY) + (bX - cX)) (aZ + (bZ - cZ))) := by
  rw [pre_calc_transform_four L ha hb hc, exact_pperp_mul_cos L hL,
    exact_pperp_mul_sin L hL, exact_pperp_mul_cos L hL, exact_pperp_mul_sin L hL]

/-- C14: over exact real arithmetic, for every four-component vector
`pperp*cos(phi)` equals `pX` and `pperp*sin(phi)` equals `pY` (also when
`pX = pY = 0`, where `atan2(0,0) = 0`), so for four-component `a`, `b`, `c`
the transformed vector has `pX = a.pX + (b.pX + c.pX) + (b.pY - c.pY)` and
`pY = a.pY + (b.pY + c.pY) + (b.pX - c.pX)`. -/
theorem pre_calc_transform_trig_collapse (L : Libm ℝ) (hL : L.Exact)
    (a b c : FourMomentum ℝ) (aE aX aY aZ bE bX bY bZ cE cX cY cZ : ℝ)
    (ha : a.p = [aE, aX, aY, aZ]) (hb : b.p = [bE, bX, bY, bZ])
    (hc : c.p = [cE, cX, cY, cZ]) :
    (∀ f : FourMomentum ℝ, f.p.length = 4 →
      ∃ perp phi pX pY, f.pperp L = some perp ∧ f.phi L = some phi ∧
        f.px = some pX ∧ f.py = some pY ∧
        perp * L.cos phi = pX ∧ perp * L.sin phi = pY) ∧
    L.atan2 0 0 = 0 ∧
    ∃ t : FourMomentum ℝ, pre_calc_transform L a b c = some t ∧
      t.px = some (aX + (bX + cX) + (bY - cY)) ∧
      t.py = some (aY + (bY + cY) + (bX - cX)) := by
  refine ⟨fun f hf => ?_, ?_, _, pre_calc_transform_exact_four L hL ha hb hc,
    rfl, rfl⟩
  · obtain ⟨e, x, y, z, hf⟩ := eq_four_of_length hf
    obtain ⟨-, h2, h3, -⟩ := accessors_four hf
    exact ⟨_, _, _, _, pperp_four L hf, phi_four L hf, h2, h3,
      exact_pperp_mul_cos L hL x y, exact_pperp_mul_sin L hL x y⟩
  · rw [hL.atan2_eq]
    exact Complex.arg_zero

/-- C14, at the reference vectors `a = (200,0,0,200)`, `b = (90,30,30,2000)`,
`c = (45,15,20,1000)` with the mathematical functions. -/
theorem pre_calc_transform_trig_collapse_witness :
    (⟨Real.sqrt, Real.log, Real.cos, Real.sin,
      fun y x => Complex.arg ⟨x, y⟩⟩ : Libm ℝ).Exact ∧
    ∃ t : FourMomentum ℝ,
      pre_calc_transform ⟨Real.sqrt, Real.log, Real.cos, Real.sin,
          fun y x => Complex.arg ⟨x, y⟩⟩
        (FourMomentum.ofScalars 200 0 0 200)
        (FourMomentum.ofScalars 90 30 30 2000)
        (FourMomentum.ofScalars 45 15 20 1000) = some t ∧
      t.px = some (0 + (30 + 15) + (30 - 20)) ∧
      t.py = some (0 + (30 + 20) + (30 - 15)) :=
  ⟨exact_real_functions,
    (pre_calc_transform_trig_collapse _ exact_real_functions
      (FourMomentum.ofScalars 200 0 0 200) (FourMomentum.ofScalars 90 30 30 2000)
      (FourMomentum.ofScalars 45 15 20 1000)
      200 0 0 200 90 30 30 2000 45 15 20 1000 rfl rfl rfl).2.2⟩

/-- C15: for the inputs hard-coded in `main`, `a = (200,0,0,200)`,
`b = (90,30,30,2000)`, `c = (45,15,20,1000)`, `q2 = 100`, in exact arithmetic
the transformed vector is `(335, 55, 65, 1200)`, its `pperp2()` is `7250` (log
argument `72.5 > 0`) and its `m2()` is
`335^2 - 55^2 - 65^2 - 1200^2 = -1335025`, so the argument
`m2/q2 = -13350.25` of the second logarithm in `do_calculation` is negative;
`main` reports the product of the two logarithms times `-573000`. -/
theorem main_reference_values (L : Libm ℝ) (hL : L.Exact) :
    ∃ t : FourMomentum ℝ,
      pre_calc_transform L (FourMomentum.ofScalars 200 0 0 200)
        (FourMomentum.ofScalars 90 30 30 2000)
        (FourMomentum.ofScalars 45 15 20 1000) = some t ∧
      t.p = [335, 55, 65, 1200] ∧
      t.pperp2 = some 7250 ∧ (7250 : ℝ) / 100 = 72.5 ∧ (0 : ℝ) < 7250 / 100 ∧
      t.m2 = some (-1335025) ∧
      (335 ^ 2 - 55 ^ 2 - 65 ^ 2 - 1200 ^ 2 : ℝ) = -1335025 ∧
      (-1335025 : ℝ) / 100 = -13350.25 ∧ (-1335025 : ℝ) / 100 < 0 ∧
      do_calculation L t 100
        = some (L.log (7250 / 100) * L.log (-1335025 / 100)) ∧
      main L
        = some (L.log (7250 / 100) * L.log (-1335025 / 100) * (-573000)) := by
  have ha : (FourMomentum.ofScalars (200 : ℝ) 0 0 200).p = [200, 0, 0, 200] := rfl
  have hb : (FourMomentum.ofScalars (90 : ℝ) 30 30 2000).p = [90, 30, 30, 2000] := rfl
  have hc : (FourMomentum.ofScalars (45 : ℝ) 15 20 1000).p = [45, 15, 20, 1000] := rfl
  have ht := pre_calc_transform_exact_four L hL ha hb hc
  have hp : (FourMomentum.ofScalars ((200 : ℝ) + (90 + 45)) (0 + (30 + 15) + (30 - 20))
      (0 + (30 + 20) + (30 - 15)) (200 + (2000 - 1000))).p
      = [335, 55, 65, 1200] := by
    simp only [FourMomentum.ofScalars]
    norm_num
  have hd := do_calculation_four L hp 100
  have hd' : do_calculation L (FourMomentum.ofScalars ((200 : ℝ) + (90 + 45))
      (0 + (30 + 15) + (30 - 20)) (0 + (30 + 20) + (30 - 15)) (200 + (2000 - 1000))) 100
      = some (L.log (7250 / 100) * L.log (-1335025 / 100)) := by
    rw [hd]
    norm_num
  refine ⟨_, ht, hp, ?_, by norm_num, by norm_num, ?_, by norm_num, by norm_num,
    by norm_num, hd', ?_⟩
  · rw [pperp2_four hp]
    norm_num
  · rw [m2_four hp]
    norm_num
  · rw [main, main_sequence_four L ha hb hc ht hd']
    norm_num

/-- C15, with the mathematical functions as the `<math.h>` parameter. -/
theorem main_reference_values_witness :
    (⟨Real.sqrt, Real.log, Real.cos, Real.sin,
      fun y x => Complex.arg ⟨x, y⟩⟩ : Libm ℝ).Exact ∧
    main (⟨Real.sqrt, Real.log, Real.cos, Real.sin,
        fun y x => Complex.arg ⟨x, y⟩⟩ : Libm ℝ)
      = some (Real.log (7250 / 100) * Real.log (-1335025 / 100) * (-573000)) :=
  ⟨exact_real_functions,
    (main_reference_values _ exact_real_functions).choose_spec.2.2.2.2.2.2.2.2.2.2⟩

/-- C17: over exact real arithmetic, for every four-component vector
`pperp2()` is non-negative, so `pperp() = sqrt(pperp2())` is a real square
root with `pperp()*pperp() == pperp2()`; `m2()` can be negative (it is `-1` at
`(0,1,0,0)`), and `m()*m() == m2()` holds exactly when `m2() >= 0`. -/
theorem pperp_and_m_square_roots (L : Libm ℝ) (hL : L.Exact)
    (f : FourMomentum ℝ) (hf : f.p.length = 4) :
    (∃ s perp h mass : ℝ, f.pperp2 = some s ∧ 0 ≤ s ∧
      f.pperp L = some perp ∧ perp = Real.sqrt s ∧ perp * perp = s ∧
      f.m2 = some h ∧ f.m L = some mass ∧ (mass * mass = h ↔ 0 ≤ h)) ∧
    (FourMomentum.ofScalars (0 : ℝ) 1 0 0).p.length = 4 ∧
    ∃ h : ℝ, (FourMomentum.ofScalars (0 : ℝ) 1 0 0).m2 = some h ∧ h < 0 := by
  obtain ⟨e, x, y, z, hf⟩ := eq_four_of_length hf
  have hs : 0 ≤ x * x + y * y :=
    add_nonneg (mul_self_nonneg x) (mul_self_nonneg y)
  refine ⟨⟨_, _, _, _, pperp2_four hf, hs, pperp_four L hf, hL.sqrt_eq _ hs, ?_,
    m2_four hf, m_four L hf, ?_, ?_⟩, rfl, -1, ?_, by norm_num⟩
  · rw [hL.sqrt_eq _ hs]
    exact Real.mul_self_sqrt hs
  · intro h
    rw [← h]
    exact mul_self_nonneg _
  · intro h
    rw [hL.sqrt_eq _ h]
    exact Real.mul_self_sqrt h
  · rw [m2_four (rfl : (FourMomentum.ofScalars (0 : ℝ) 1 0 0).p = [0, 1, 0, 0])]
    norm_num

/-- C17, at `(335, 55, 65, 1200)` with the mathematical functions. -/
theorem pperp_and_m_square_roots_witness :
    (⟨Real.sqrt, Real.log, Real.cos, Real.sin,
      fun y x => Complex.arg ⟨x, y⟩⟩ : Libm ℝ).Exact ∧
    (FourMomentum.ofScalars (335 : ℝ) 55 65 1200).p.length = 4 ∧
    ∃ h : ℝ, (FourMomentum.ofScalars (0 : ℝ) 1 0 0).m2 = some h ∧ h < 0 :=
  ⟨exact_real_functions, rfl,
    (pperp_and_m_square_roots _ exact_real_functions
      (FourMomentum.ofScalars (335 : ℝ) 55 65 1200) rfl).2.2⟩

/-! ## The special values: NaN and the infinities -/

/-- The sum of two finite values. -/
theorem Double.fin_add_fin (a b : ℚ) :
    (Double.fin a + Double.fin b : Double) = Double.fin (a + b) :=
  rfl

/-- The difference of two finite values. -/
theorem Double.fin_sub_fin (a b : ℚ) :
    (Double.fin a - Double.fin b : Double) = Double.fin (a - b) := by
  show Double.add (Double.fin a) (Double.neg (Double.fin b)) = _
  simp [Double.add, Double.neg, sub_eq_add_neg]

/-- The product of two finite values. -/
theorem Double.fin_mul_fin (a b : ℚ) :
    (Double.fin a * Double.fin b : Double) = Double.fin (a * b) :=
  rfl

/-- A positive finite value over zero is `+Infinity`. -/
theorem Double.fin_pos_div_zero {a : ℚ} (h : 0 < a) :
    (Double.fin a / Double.fin 0 : Double) = Double.pinf := by
  show Double.div (Double.fin a) (Double.fin 0) = _
  simp [Double.div, h, h.ne.symm]

/-- A negative finite value over zero is `-Infinity`. -/
theorem Double.fin_neg_div_zero {a : ℚ} (h : a < 0) :
    (Double.fin a / Double.fin 0 : Double) = Double.ninf := by
  show Double.div (Double.fin a) (Double.fin 0) = _
  simp [Double.div, h.ne, not_lt.mpr h.le]

/-- Zero over zero is NaN. -/
theorem Double.zero_div_zero :
    (Double.fin 0 / Double.fin 0 : Double) = Double.nan := by
  show Double.div (Double.fin 0) (Double.fin 0) = _
  simp [Double.div]

/-- The literal `0.5` times `+Infinity` is `+Infinity`. -/
theorem Double.half_mul_pinf : ((0.5 : Double) * Double.pinf) = Double.pinf := by
  show Double.mul (Double.fin (0.5 : ℚ)) Double.pinf = _
  have h : (0 : ℚ) < 0.5 := by norm_num
  simp [Double.mul, h, h.ne.symm]

/-- The literal `0.5` times NaN is NaN. -/
theorem Double.half_mul_nan : ((0.5 : Double) * Double.nan) = Double.nan :=
  rfl

/-- A product whose left factor is not finite is not finite. -/
theorem Double.isFinite_mul_left {x : Double} (d : Double)
    (h : x.isFinite = false) : (x * d).isFinite = false := by
  show (Double.mul x d).isFinite = false
  cases x <;> cases d <;> simp [Double.mul, Double.isFinite] at h ⊢ <;>
    split_ifs <;> rfl

/-- A product whose right factor is not finite is not finite. -/
theorem Double.isFinite_mul_right (x : Double) {d : Double}
    (h : d.isFinite = false) : (x * d).isFinite = false := by
  show (Double.mul x d).isFinite = false
  cases x <;> cases d <;> simp [Double.mul, Double.isFinite] at h ⊢ <;>
    split_ifs <;> rfl

/-- With `log` as C fixes it at the special arguments, `Double` obeys the
rules for the special values. -/
theorem Double.specialValueRules (L : Libm Double) (hL : L.LogSpecial) :
    SpecialValueRules Double.tests L where
  div_neg_pos := by
    intro x y hx hy
    show (Double.div x y).isNegative = true ∨ (Double.div x y).isZero = true ∨
      (Double.div x y).isFinite = false
    cases x <;> cases y <;>
      simp [Double.tests, Double.isNegative, Double.isPositive] at hx hy
    · simp [Double.div, hy.le, Double.isFinite]
    · simp [Double.div, Double.isFinite]
    · simp [Double.div, hy.ne.symm, Double.isNegative,
        div_neg_of_neg_of_pos hx hy]
    · simp [Double.div, Double.isZero]
  log_neg := by
    intro x hx
    show (L.log x).isFinite = false
    cases x <;> simp [Double.tests, Double.isNegative] at hx
    · simp [hL.log_ninf, Double.isFinite]
    · simp [hL.log_neg _ hx, Double.isFinite]
  log_zero := by
    intro x hx
    show (L.log x).isFinite = false
    cases x <;> simp [Double.tests, Double.isZero] at hx
    simp [hx, hL.log_zero, Double.isFinite]
  log_not_finite := by
    intro x hx
    show (L.log x).isFinite = false
    cases x <;> simp [Double.tests, Double.isFinite] at hx
    · simp [hL.log_nan, Double.isFinite]
    · simp [hL.log_ninf, Double.isFinite]
    · simp [hL.log_pinf, Double.isFinite]
  mul_not_finite_left := fun _ y hx => Double.isFinite_mul_left y hx
  mul_not_finite_right := fun x _ hy => Double.isFinite_mul_right x hy

/-- The sample parameter over `Double` has `log` as C fixes it at the special
arguments. -/
theorem sampleDouble_logSpecial : Libm.sampleDouble.LogSpecial :=
  ⟨rfl, rfl, by simp [Libm.sampleDouble], rfl,
    fun q hq => by simp [Libm.sampleDouble, hq]⟩

/-- C12, as stated, fails: at the vector `(0,0,0,0)`, whose `E` equals its
`pZ`, `rap()` is `0.5*log(0/0)`, which is NaN and not `+Infinity`; and at
`(-1,0,0,-1)` it is `0.5*log(-2/0) = 0.5*log(-Infinity)`, NaN again. -/
theorem rap_nan_at_zero_and_negative :
    (FourMomentum.ofScalars (Double.fin 0) (Double.fin 0) (Double.fin 0)
        (Double.fin 0)).E
      = (FourMomentum.ofScalars (Double.fin 0) (Double.fin 0) (Double.fin 0)
        (Double.fin 0)).pz ∧
    (FourMomentum.ofScalars (Double.fin 0) (Double.fin 0) (Double.fin 0)
        (Double.fin 0)).rap Libm.sampleDouble = some Double.nan ∧
    (FourMomentum.ofScalars (Double.fin 0) (Double.fin 0) (Double.fin 0)
        (Double.fin 0)).rap Libm.sampleDouble ≠ some Double.pinf ∧
    (FourMomentum.ofScalars (Double.fin (-1)) (Double.fin 0) (Double.fin 0)
        (Double.fin (-1))).E
      = (FourMomentum.ofScalars (Double.fin (-1)) (Double.fin 0) (Double.fin 0)
        (Double.fin (-1))).pz ∧
    (FourMomentum.ofScalars (Double.fin (-1)) (Double.fin 0) (Double.fin 0)
        (Double.fin (-1))).rap Libm.sampleDouble = some Double.nan := by
  have h0 : (FourMomentum.ofScalars (Double.fin 0) (Double.fin 0) (Double.fin 0)
      (Double.fin 0)).rap Libm.sampleDouble = some Double.nan := by
    rw [rap_four Libm.sampleDouble (rfl : (FourMomentum.ofScalars _ _ _ _).p = _),
      Double.fin_add_fin, Double.fin_sub_fin]
    norm_num [Double.zero_div_zero, sampleDouble_logSpecial.log_nan,
      Double.half_mul_nan]
  have h1 : (FourMomentum.ofScalars (Double.fin (-1)) (Double.fin 0) (Double.fin 0)
      (Double.fin (-1))).rap Libm.sampleDouble = some Double.nan := by
    rw [rap_four Libm.sampleDouble (rfl : (FourMomentum.ofScalars _ _ _ _).p = _),
      Double.fin_add_fin, Double.fin_sub_fin]
    have h2 : ((-1 : ℚ) + -1) < 0 := by norm_num
    rw [sub_self, Double.fin_neg_div_zero h2, sampleDouble_logSpecial.log_ninf,
      Double.half_mul_nan]
  refine ⟨rfl, h0, ?_, rfl, h1⟩
  rw [h0]
  decide

/-- C12, amended: for every four-component vector whose `E` equals its `pZ`,
both finite, the denominator `E - pZ` of `rap()` is zero and `rap()` returns
without a fault; the value is `+Infinity` when `E` is positive, and NaN when
`E` is zero or negative. -/
theorem rap_E_eq_pz (L : Libm Double) (hL : L.LogSpecial)
    (f : FourMomentum Double) (e : ℚ) (x y : Double)
    (hf : f.p = [Double.fin e, x, y, Double.fin e]) :
    f.E = some (Double.fin e) ∧ f.pz = some (Double.fin e) ∧
    (Double.fin e - Double.fin e : Double) = Double.fin 0 ∧
    (0 < e → f.rap L = some Double.pinf) ∧
    (e ≤ 0 → f.rap L = some Double.nan) := by
  obtain ⟨h1, -, -, h4⟩ := accessors_four hf
  have hr := rap_four L hf
  rw [Double.fin_add_fin, Double.fin_sub_fin, sub_self] at hr
  refine ⟨h1, h4, by rw [Double.fin_sub_fin, sub_self], fun he => ?_, fun he => ?_⟩
  · rw [hr, Double.fin_pos_div_zero (add_pos he he), hL.log_pinf,
      Double.half_mul_pinf]
  · rw [hr]
    rcases he.lt_or_eq with hlt | heq
    · rw [Double.fin_neg_div_zero (add_neg hlt hlt), hL.log_ninf,
        Double.half_mul_nan]
    · rw [heq, add_zero, Double.zero_div_zero, hL.log_nan, Double.half_mul_nan]

/-- C12, amended, at the vector `(1,0,0,1)`: `rap()` is `+Infinity`. -/
theorem rap_E_eq_pz_witness :
    Libm.sampleDouble.LogSpecial ∧
    (FourMomentum.ofScalars (Double.fin 1) (Double.fin 0) (Double.fin 0)
        (Double.fin 1)).p
      = [Double.fin 1, Double.fin 0, Double.fin 0, Double.fin 1] ∧
    (FourMomentum.ofScalars (Double.fin 1) (Double.fin 0) (Double.fin 0)
        (Double.fin 1)).rap Libm.sampleDouble = some Double.pinf :=
  ⟨sampleDouble_logSpecial, rfl,
    (rap_E_eq_pz Libm.sampleDouble sampleDouble_logSpecial _ 1 (Double.fin 0)
      (Double.fin 0) rfl).2.2.2.1 (by norm_num)⟩

/-- C13: for every four-component transformed vector whose `m2()`, as the
source computes it, is negative, and every positive scale `q2`,
`do_calculation` returns (no fault) a value that is not finite, because the
logarithm of `m2/q2` is not finite and the product keeps it so; and the final
`result = log_product * dot(a, b)` of the sequence of `main` is not finite
either.  The scalar type is arbitrary (its operations round as they will) and
obeys the rules for the special values. -/
theorem do_calculation_not_finite {β : Type} [Add β] [Sub β] [Mul β] [Div β]
    [OfScientific β] (T : FloatTests β) (L : Libm β)
    (hR : SpecialValueRules T L) (t : FourMomentum β) (q2 h : β)
    (ht : t.p.length = 4) (hm : t.m2 = some h)
    (hneg : T.isNegative h = true) (hq : T.isPositive q2 = true) :
    ∃ lp : β, do_calculation L t q2 = some lp ∧
      T.isFinite (L.log (h / q2)) = false ∧ T.isFinite lp = false ∧
      (∀ d : β, T.isFinite (lp * d) = false) ∧
      ∀ a b c : FourMomentum β,
        a.p.length = 4 → b.p.length = 4 → c.p.length = 4 →
        pre_calc_transform L a b c = some t →
        ∃ (b' : FourMomentum β) (d result : β),
          b.plusAssign c = some (b', c) ∧ dot a b' = some d ∧
          main_sequence L a b c q2 = some result ∧ result = lp * d ∧
          T.isFinite result = false := by
  obtain ⟨e, x, y, z, ht⟩ := eq_four_of_length ht
  have hd := do_calculation_four L ht q2
  have hh : e * e - x * x - y * y - z * z = h :=
    Option.some.inj ((m2_four ht).symm.trans hm)
  rw [hh] at hd
  have hlog : T.isFinite (L.log (h / q2)) = false := by
    rcases hR.div_neg_pos h q2 hneg hq with hn | hz | hf
    · exact hR.log_neg _ hn
    · exact hR.log_zero _ hz
    · exact hR.log_not_finite _ hf
  have hlp := hR.mul_not_finite_right (L.log ((x * x + y * y) / q2)) _ hlog
  refine ⟨_, hd, hlog, hlp, fun d => hR.mul_not_finite_left _ d hlp,
    fun a b c ha hb hc hpre => ?_⟩
  obtain ⟨aE, aX, aY, aZ, ha⟩ := eq_four_of_length ha
  obtain ⟨bE, bX, bY, bZ, hb⟩ := eq_four_of_length hb
  obtain ⟨cE, cX, cY, cZ, hc⟩ := eq_four_of_length hc
  have hs : (⟨[bE + cE, bX + cX, bY + cY, bZ + cZ]⟩ : FourMomentum β).p
      = [bE + cE, bX + cX, bY + cY, bZ + cZ] := rfl
  exact ⟨_, _, _, plusAssign_four hb hc, dot_four ha hs,
    main_sequence_four L ha hb hc hpre hd, rfl, hR.mul_not_finite_left _ _ hlp⟩

/-- C13, over `Double` at the transformed vector `(0,1,0,0)`, whose `m2()` is
`-1` (exactly, in the source too), and `q2 = 100`. -/
theorem do_calculation_not_finite_witness :
    SpecialValueRules Double.tests Libm.sampleDouble ∧
    (FourMomentum.ofScalars (Double.fin 0) (Double.fin 1) (Double.fin 0)
        (Double.fin 0)).p.length = 4 ∧
    (FourMomentum.ofScalars (Double.fin 0) (Double.fin 1) (Double.fin 0)
        (Double.fin 0)).m2 = some (Double.fin (-1)) ∧
    Double.tests.isNegative (Double.fin (-1)) = true ∧
    Double.tests.isPositive (Double.fin 100) = true ∧
    ∃ lp : Double,
      do_calculation Libm.sampleDouble
        (FourMomentum.ofScalars (Double.fin 0) (Double.fin 1) (Double.fin 0)
          (Double.fin 0)) (Double.fin 100) = some lp ∧
      Double.tests.isFinite lp = false :=
  have hR := Double.specialValueRules Libm.sampleDouble sampleDouble_logSpecial
  have hm : (FourMomentum.ofScalars (Double.fin 0) (Double.fin 1) (Double.fin 0)
      (Double.fin 0)).m2 = some (Double.fin (-1)) := by
    rw [m2_four (rfl : (FourMomentum.ofScalars _ _ _ _).p = _)]
    simp only [Double.fin_mul_fin, Double.fin_sub_fin]
    norm_num
  have hn : Double.tests.isNegative (Double.fin (-1)) = true := by
    simp [Double.tests, Double.isNegative]
  have hp : Double.tests.isPositive (Double.fin 100) = true := by
    simp [Double.tests, Double.isPositive]
  have h := do_calculation_not_finite Double.tests Libm.sampleDouble hR
    (FourMomentum.ofScalars (Double.fin 0) (Double.fin 1) (Double.fin 0)
      (Double.fin 0)) (Double.fin 100) (Double.fin (-1)) rfl hm hn hp
  ⟨hR, rfl, hm, hn, hp, h.choose, h.choose_spec.1, h.choose_spec.2.2.1⟩

end HepCalculation
